import Mathlib

/-!
Verification of the kigen marker-block pipeline (kigen.py).

The program is embedded shallowly: Python strings become lists of
characters (`PyStr`), and the Python string operations used by the code
(`str.strip`, `str.split` on a single character, `str.join`,
`str.splitlines`, `str.index` / the `in` operator) are given executable
Lean counterparts with the same semantics.  Every function of the core
pipeline is translated directly from `src/kigen.py`:

* `split_marker`, `extract_args`, `extract_command`  (lines 53-93)
* `extract_blocks`                                   (lines 96-128)
* `split_file_at_blocks`                             (lines 131-143)
* `command_to_cmdstr`, `block_to_start_string`,
  `block_to_end_string`                              (lines 216-242)
* `render_block`                                     (lines 257-285)
* `recombine`                                        (lines 288-294)

Fallible Python code (exceptions) is modelled with `Option` / `Except`.
-/

/-- Python strings, modelled as lists of characters. -/
abbrev PyStr := List Char

/-- The characters stripped by Python `str.strip()`. -/
def isWs (c : Char) : Bool :=
  c = ' ' ∨ c = '\t' ∨ c = '\n' ∨ c = '\r' ∨ c = '\x0b' ∨ c = '\x0c'

/-- Left part of Python `str.strip()`: drop leading whitespace. -/
def stripLeft (xs : PyStr) : PyStr := xs.dropWhile isWs

/-- Right part of Python `str.strip()`: drop trailing whitespace. -/
def stripRight (xs : PyStr) : PyStr := (xs.reverse.dropWhile isWs).reverse

/-- Python `str.strip()`. -/
def pyStrip (xs : PyStr) : PyStr := stripLeft (stripRight xs)

/-- Helper for `pySplit`: accumulates the current piece (reversed). -/
def pySplitAux (sep : Char) (acc : PyStr) : PyStr → List PyStr
  | [] => [acc.reverse]
  | c :: rest =>
    if c = sep then acc.reverse :: pySplitAux sep [] rest
    else pySplitAux sep (c :: acc) rest

/-- Python `str.split(sep)` for a one-character separator: splits at every
occurrence, keeping empty pieces; the result is always nonempty. -/
def pySplit (sep : Char) (xs : PyStr) : List PyStr := pySplitAux sep [] xs

/-- Python `sep.join(xs)`. -/
def pyJoin (sep : PyStr) : List PyStr → PyStr
  | [] => []
  | [x] => x
  | x :: xs => x ++ sep ++ pyJoin sep xs

/-- Helper for `pySplitlines`: accumulates the current line (reversed). -/
def pySplitlinesAux (acc : PyStr) : PyStr → List PyStr
  | [] => if acc.isEmpty then [] else [acc.reverse]
  | '\r' :: '\n' :: rest => acc.reverse :: pySplitlinesAux [] rest
  | '\r' :: rest => acc.reverse :: pySplitlinesAux [] rest
  | '\n' :: rest => acc.reverse :: pySplitlinesAux [] rest
  | c :: rest => pySplitlinesAux (c :: acc) rest

/-- Python `str.splitlines()` (restricted to the line boundaries
`\n`, `\r` and `\r\n`): no empty final line is produced for a trailing
line boundary. -/
def pySplitlines (xs : PyStr) : List PyStr := pySplitlinesAux [] xs

/-- Index of the first occurrence of `needle` in `hay`
(Python `str.index` / `str.find`). -/
def pyFind (needle : PyStr) : PyStr → Option Nat
  | [] => if needle.isEmpty then some 0 else none
  | hay@(_ :: t) =>
    if needle.isPrefixOf hay then some 0
    else (pyFind needle t).map (· + 1)

/-- Python substring containment (the `in` operator on strings). -/
def pyIn (needle hay : PyStr) : Bool := (pyFind needle hay).isSome

/-- kigen.py line 12. -/
def START_MARKER : PyStr := ("KIGEN_start").toList

/-- kigen.py line 13. -/
def STOP_MARKER : PyStr := ("KIGEN_end").toList

/-- kigen.py line 15: `ModuleCmd = namedtuple('ModuleCmd', 'function args')`.
`args` is an `OrderedDict`, modelled as an insertion-ordered association
list with unique keys. -/
structure ModuleCmd where
  function : PyStr
  args : List (PyStr × PyStr)
deriving DecidableEq, Repr

/-- kigen.py lines 16-17:
`AutogenBlock = namedtuple('AutogenBlock', 'start end command commentmark')`.
The field `end` is named `end_` because `end` is a Lean keyword. -/
structure AutogenBlock where
  start : Nat
  end_ : Nat
  command : ModuleCmd
  commentmark : PyStr
deriving DecidableEq, Repr

instance : Inhabited AutogenBlock := ⟨⟨0, 0, ⟨[], []⟩, []⟩⟩

/-- Python `OrderedDict` assignment `d[k] = v`: if the key is present its
value is overwritten in place (keeping the position of the first
occurrence), otherwise the pair is appended. -/
def odSet (d : List (PyStr × PyStr)) (k v : PyStr) : List (PyStr × PyStr) :=
  match d with
  | [] => [(k, v)]
  | (k', v') :: rest => if k' = k then (k', v) :: rest else (k', v') :: odSet rest k v

/-- Python `OrderedDict` lookup `d[k]` (first pair with the key; keys are
unique so this is the unique binding). -/
def odGet : List (PyStr × PyStr) → PyStr → Option PyStr
  | [], _ => none
  | (k', v') :: rest, k => if k' = k then some v' else odGet rest k

/-- kigen.py lines 64-74, `extract_args`: each raw argument must split on
`:` into exactly a key and a value (`k, v = arg.split(':')`); any other
shape raises `ValueError`, modelled as `none`.  Pairs are inserted into an
`OrderedDict` in order. -/
def extract_args (raw_args : List PyStr) : Option (List (PyStr × PyStr)) :=
  raw_args.foldlM
    (fun d arg =>
      match pySplit ':' arg with
      | [k, v] => some (odSet d k v)
      | _ => none)
    []

/-- kigen.py lines 53-61, `split_marker`: split the line at the first
occurrence of `START_MARKER`; `line.index` raises when the marker is
absent, modelled as `none`. -/
def split_marker (line : PyStr) : Option (PyStr × PyStr) :=
  (pyFind START_MARKER line).map
    (fun idx =>
      (pyStrip (line.take idx), pyStrip (line.drop (idx + START_MARKER.length))))

/-- kigen.py lines 77-93, `extract_command`: strip the marker, split the
remainder on single spaces, take the first token as the function and parse
the rest as arguments.  `none` models the exceptions raised by
`line.index` and `extract_args`. -/
def extract_command (line : PyStr) : Option (PyStr × ModuleCmd) :=
  match split_marker line with
  | none => none
  | some (commentmarker, rest) =>
    match pySplit ' ' (pyStrip rest) with
    | [] => none
    | function :: raw_args =>
      match extract_args raw_args with
      | none => none
      | some args => some (commentmarker, ⟨function, args⟩)

/-- Scanner state of `extract_blocks`: the Python variables `in_block`,
`block_start`, `commentmarker` and `command`.  In the Python code the last
three are only ever read while `in_block` is true, and they are all
assigned together on the line that sets `in_block = True`, so they are
carried by the `inside` constructor. -/
inductive ScanSt where
  | outside : ScanSt
  | inside (block_start : Nat) (commentmarker : PyStr) (command : ModuleCmd) : ScanSt
deriving DecidableEq, Repr

/-- Errors raised by `extract_blocks` (kigen.py lines 96-128):
`NestedBlockError`, `DanglingBlockEnd`, and the `ValueError` that
`extract_command` propagates out of a malformed start line. -/
inductive ScanErr where
  | nested (idx block_start : Nat) : ScanErr
  | dangling (idx : Nat) : ScanErr
  | parseError (idx : Nat) : ScanErr
deriving DecidableEq, Repr

/-- Second `if` of the loop body of `extract_blocks` (kigen.py lines
119-127): a line containing `STOP_MARKER` closes the pending block or
raises `DanglingBlockEnd`. -/
def stopCheck (idx : Nat) (line : PyStr) (mode : ScanSt)
    (result : List AutogenBlock) : Except ScanErr (ScanSt × List AutogenBlock) :=
  if pyIn STOP_MARKER line then
    match mode with
    | .outside => .error (.dangling idx)
    | .inside block_start cm cmd => .ok (.outside, result ++ [⟨block_start, idx, cmd, cm⟩])
  else .ok (mode, result)

/-- Loop body of `extract_blocks` (kigen.py lines 107-127): the two `if`
statements run in sequence, the `STOP_MARKER` check seeing the state left
by the `START_MARKER` check. -/
def lineStep (idx : Nat) (line : PyStr) (mode : ScanSt)
    (result : List AutogenBlock) : Except ScanErr (ScanSt × List AutogenBlock) :=
  if pyIn START_MARKER line then
    match mode with
    | .inside block_start _ _ => .error (.nested idx block_start)
    | .outside =>
      match extract_command line with
      | none => .error (.parseError idx)
      | some (cm, cmd) => stopCheck idx line (.inside idx cm cmd) result
  else stopCheck idx line mode result

/-- The `for idx, line in enumerate(...)` loop of `extract_blocks`. -/
def scanAux (idx : Nat) (mode : ScanSt) (result : List AutogenBlock) :
    List PyStr → Except ScanErr (ScanSt × List AutogenBlock)
  | [] => .ok (mode, result)
  | line :: rest =>
    match lineStep idx line mode result with
    | .error e => .error e
    | .ok (m, r) => scanAux (idx + 1) m r rest

/-- kigen.py lines 96-128, `extract_blocks`: scan the lines of the file and
return the completed blocks (an unterminated final block is not
appended). -/
def extract_blocks (file_data : PyStr) : Except ScanErr (List AutogenBlock) :=
  match scanAux 0 .outside [] (pySplitlines file_data) with
  | .error e => .error e
  | .ok (_, result) => .ok result

/-- Loop of `split_file_at_blocks` (kigen.py lines 137-143): the slice
`file_lines[index:block.start]` is `(file_lines.drop index).take
(block.start - index)`. -/
def splitFileAux (file_lines : List PyStr) (index : Nat) :
    List AutogenBlock → List PyStr
  | [] => []
  | block :: rest =>
    pyJoin ['\n'] ((file_lines.drop index).take (block.start - index)) ::
      splitFileAux file_lines (block.end_ + 1) rest

/-- kigen.py lines 131-143, `split_file_at_blocks`: one chunk is appended
per block; nothing is appended after the loop. -/
def split_file_at_blocks (file_data : PyStr) (blocks : List AutogenBlock) :
    List PyStr :=
  splitFileAux (pySplitlines file_data) 0 blocks

/-- `itertools.chain(*zip(chunks, blocks))`: `zip` truncates to the shorter
list, `chain` flattens the pairs. -/
def zipFlat : List PyStr → List PyStr → List PyStr
  | c :: cs, b :: bs => c :: b :: zipFlat cs bs
  | _, _ => []

/-- kigen.py lines 288-294, `recombine`:
`'\n'.join(itertools.chain(*zip(chunks, blocks)))`. -/
def recombine (chunks blocks : List PyStr) : PyStr :=
  pyJoin ['\n'] (zipFlat chunks blocks)

/-- kigen.py lines 216-224, `command_to_cmdstr`:
`' '.join([function] + ['k:v', ...])`. -/
def command_to_cmdstr (command : ModuleCmd) : PyStr :=
  pyJoin [' '] (command.function :: command.args.map (fun p => p.1 ++ ':' :: p.2))

/-- kigen.py lines 227-234, `block_to_start_string`:
`"{} KIGEN_start {}".format(block.commentmark, command_to_cmdstr(cmd))`. -/
def block_to_start_string (block : AutogenBlock) : PyStr :=
  block.commentmark ++ ' ' :: START_MARKER ++ ' ' :: command_to_cmdstr block.command

/-- kigen.py lines 237-242, `block_to_end_string`:
`"{} KIGEN_end".format(block.commentmark)`. -/
def block_to_end_string (block : AutogenBlock) : PyStr :=
  block.commentmark ++ ' ' :: STOP_MARKER

/-- kigen.py lines 20-21, `ExpansionModule`: the dynamically loaded python
module itself is an external collaborator and is not modelled; the name
and the directory it was found in are what `render_block` reads. -/
structure ExpModule where
  name : PyStr
  base_path : PyStr
deriving DecidableEq, Repr

/-- Errors raised by `render_block`: `UnknownExpansionModule` and
`InvalidContent`, each carrying its message. -/
inductive RenderErr where
  | unknownModule (msg : PyStr) : RenderErr
  | invalidContent (msg : PyStr) : RenderErr
deriving DecidableEq, Repr

/-- Python `fmt.format(args...)` when `fmt` contains no replacement field:
the arguments are ignored and the format string is returned unchanged.
kigen.py line 268 evaluates `'\n'.format([...])`, which is this case. -/
def formatNoFields (fmt : PyStr) (_args : List PyStr) : PyStr := fmt

/-- Python `dict` lookup `modules[f]` on the registry, modelled as an
insertion-ordered association list with unique keys. -/
def dictGet (modules : List (PyStr × ExpModule)) (f : PyStr) : Option ExpModule :=
  (modules.find? (fun p => p.1 = f)).map (fun p => p.2)

/-- kigen.py lines 266-272: the message built for `UnknownExpansionModule`.
Line 268 is `mod_dir_str = '\n'.format(['- {}'.format(x) for x in mod_dirs])`,
so the formatted directory list is discarded and `mod_dir_str` is `'\n'`. -/
def unknown_module_message (f : PyStr) (modules : List (PyStr × ExpModule)) : PyStr :=
  ("Expansion module `").toList ++ f ++
    ("` not found in any of the following directories: ").toList ++
    formatNoFields ['\n']
      ((modules.map (fun p => p.2.base_path)).map (fun x => ("- ").toList ++ x))

/-- kigen.py lines 257-285, `render_block`.  The external collaborators
(`get_content`, the template file read and the jinja rendering, lines
274-282) are abstracted as the oracle `expandBody`, which returns either
the rendered body or the `InvalidContent` error of line 276.  The registry
lookup and the construction of the `UnknownExpansionModule` error are
translated literally. -/
def render_block (expandBody : ExpModule → ModuleCmd → Except RenderErr PyStr)
    (block : AutogenBlock) (modules : List (PyStr × ExpModule)) :
    Except RenderErr PyStr :=
  match dictGet modules block.command.function with
  | none => .error (.unknownModule (unknown_module_message block.command.function modules))
  | some exp_mod =>
    match expandBody exp_mod block.command with
    | .error e => .error e
    | .ok body =>
      .ok (pyJoin ['\n'] [block_to_start_string block, body, block_to_end_string block])

/-!
## Helper lemmas: `pyJoin` and `zipFlat`
-/

theorem pyJoin_cons (sep : PyStr) (x : PyStr) (xs : List PyStr) (h : xs ≠ []) :
    pyJoin sep (x :: xs) = x ++ sep ++ pyJoin sep xs := by
  cases xs with
  | nil => exact absurd rfl h
  | cons y ys => rfl

theorem zipFlat_eq_zip_join (cs bs : List PyStr) :
    zipFlat cs bs = ((cs.zip bs).map (fun p => [p.1, p.2])).flatten := by
  induction cs generalizing bs with
  | nil => cases bs <;> rfl
  | cons c cs ih =>
    cases bs with
    | nil => rfl
    | cons b bs => simp [zipFlat, List.zip_cons_cons, ih]

theorem zipFlat_dropLast (bs : List PyStr) :
    ∀ cs : List PyStr, cs.length = bs.length + 1 →
      zipFlat cs bs = zipFlat cs.dropLast bs := by
  induction bs with
  | nil =>
    intro cs h
    match cs, h with
    | [c], _ => rfl
  | cons b bs ih =>
    intro cs h
    match cs with
    | c :: cs' =>
      have hlen : cs'.length = bs.length + 1 := by
        simpa using h
      have hne : cs' ≠ [] := by
        intro hc; rw [hc] at hlen; simp at hlen
      have : (c :: cs').dropLast = c :: cs'.dropLast := by
        cases cs' with
        | nil => exact absurd rfl hne
        | cons d ds => rfl
      rw [this]
      simp only [zipFlat, ih cs' hlen]

/-!
## Claim C2: behaviour of `recombine`
-/

/-- C2 (amended): `recombine` interleaves `chunk0, block0, chunk1, block1,
...` but `zip` truncates to the shorter list, so with `N+1` chunks and `N`
blocks the final chunk is dropped: the result is the interleaving of the
zipped pairs only, and equals `recombine` of the first `N` chunks. -/
theorem C2_recombine_truncating_interleave (chunks blocks : List PyStr)
    (h : chunks.length = blocks.length + 1) :
    recombine chunks blocks =
        pyJoin ['\n'] (((chunks.zip blocks).map (fun p => [p.1, p.2])).flatten) ∧
    recombine chunks blocks = recombine chunks.dropLast blocks := by
  constructor
  · rw [recombine, zipFlat_eq_zip_join]
  · rw [recombine, recombine, zipFlat_dropLast blocks chunks h]

/-- C2 counterexample: on chunks `["A", "B"]` and rendered blocks `["X"]`
the claim predicts `"A\nX\nB"`, but `recombine` drops the final chunk and
returns `"A\nX"`.  Likewise a zero-block file does not return its one
chunk verbatim but the empty string. -/
theorem C2_counterexample :
    recombine [("A").toList, ("B").toList] [("X").toList] = ("A\nX").toList ∧
    recombine [("A").toList, ("B").toList] [("X").toList] ≠ ("A\nX\nB").toList ∧
    recombine [("whole file").toList] [] = [] := by
  refine ⟨rfl, ?_, rfl⟩
  decide

/-- Witness for `C2_recombine_truncating_interleave` at a concrete input. -/
theorem C2_witness :
    recombine [("A").toList, ("B").toList] [("X").toList] =
        pyJoin ['\n']
          ((([("A").toList, ("B").toList].zip [("X").toList]).map
            (fun p => [p.1, p.2])).flatten) ∧
    recombine [("A").toList, ("B").toList] [("X").toList] =
        recombine ([("A").toList, ("B").toList]).dropLast [("X").toList] :=
  C2_recombine_truncating_interleave [("A").toList, ("B").toList] [("X").toList]
    (by decide)

/-!
## Helper lemmas: `pySplit`
-/

theorem pySplitAux_no_sep (sep : Char) (xs : PyStr) (h : sep ∉ xs) :
    ∀ acc, pySplitAux sep acc xs = [acc.reverse ++ xs] := by
  induction xs with
  | nil => intro acc; simp [pySplitAux]
  | cons c rest ih =>
    intro acc
    have hc : ¬ c = sep := fun hc => h (hc ▸ List.mem_cons_self c rest)
    have hrest : sep ∉ rest := fun hr => h (List.mem_cons_of_mem c hr)
    simp [pySplitAux, hc, ih hrest]

theorem pySplitAux_sep_split (sep : Char) (xs rest : PyStr) (h : sep ∉ xs) :
    ∀ acc, pySplitAux sep acc (xs ++ sep :: rest) =
      (acc.reverse ++ xs) :: pySplitAux sep [] rest := by
  induction xs with
  | nil => intro acc; simp [pySplitAux]
  | cons c xs ih =>
    intro acc
    have hc : ¬ c = sep := fun hc => h (hc ▸ List.mem_cons_self c xs)
    have hxs : sep ∉ xs := fun hr => h (List.mem_cons_of_mem c hr)
    simp [pySplitAux, hc, ih hxs]

/-- Splitting a `k ++ sep :: v` token with separator-free `k` and `v`
yields exactly `[k, v]`. -/
theorem pySplit_pair (sep : Char) (k v : PyStr) (hk : sep ∉ k) (hv : sep ∉ v) :
    pySplit sep (k ++ sep :: v) = [k, v] := by
  rw [pySplit, pySplitAux_sep_split sep k v hk, pySplitAux_no_sep sep v hv]
  rfl

theorem pySplitAux_length (sep : Char) :
    ∀ (xs : PyStr) (acc : PyStr),
      (pySplitAux sep acc xs).length = xs.count sep + 1 := by
  intro xs
  induction xs with
  | nil => intro acc; simp [pySplitAux]
  | cons c rest ih =>
    intro acc
    by_cases hc : c = sep
    · subst hc
      simp [pySplitAux, ih, List.count_cons]
    · simp [pySplitAux, hc, ih, List.count_cons]

/-- The number of pieces returned by Python `str.split(sep)` is the number
of separator occurrences plus one. -/
theorem pySplit_length (sep : Char) (xs : PyStr) :
    (pySplit sep xs).length = xs.count sep + 1 :=
  pySplitAux_length sep xs []

/-!
## Claim C7: colon handling in `extract_args`
-/

/-- C7 (amended): `k, v = arg.split(':')` demands exactly two pieces, i.e.
exactly one colon in the token.  A token with no colon or with more than
one colon raises `ValueError` (a parse failure); it is NOT split at the
first colon.  A token with exactly one colon splits into the key before
the colon and the value after it. -/
theorem C7_single_colon_only (t : PyStr) :
    (t.count ':' ≠ 1 → extract_args [t] = none) ∧
    (∀ k v : PyStr, t = k ++ ':' :: v → ':' ∉ k → ':' ∉ v →
      extract_args [t] = some [(k, v)]) := by
  constructor
  · intro hcount
    rw [extract_args, List.foldlM]
    rcases hsplit : pySplit ':' t with _ | ⟨k, _ | ⟨v, _ | _⟩⟩
    · simp
    · simp
    · exfalso
      have := pySplit_length ':' t
      rw [hsplit] at this
      simp at this
      omega
    · simp
  · intro k v ht hk hv
    subst ht
    rw [extract_args, List.foldlM, pySplit_pair ':' k v hk hv]
    rfl

/-- C7 counterexample: the claim says `"a:b:c"` splits at the first colon
into key `"a"` and value `"b:c"`; the code raises `ValueError` instead
(modelled as `none`). -/
theorem C7_counterexample :
    extract_args [("a:b:c").toList] = none ∧
    extract_args [("a:b:c").toList] ≠
      some [(("a").toList, ("b:c").toList)] := by
  refine ⟨rfl, ?_⟩
  decide

/-- Witness for `C7_single_colon_only` at concrete inputs: a colon-free
token fails, a single-colon token parses. -/
theorem C7_witness :
    extract_args [("ab").toList] = none ∧
    extract_args [("k:v").toList] = some [(("k").toList, ("v").toList)] :=
  ⟨(C7_single_colon_only (("ab").toList)).1 (by decide),
   (C7_single_colon_only (("k:v").toList)).2 (("k").toList) (("v").toList)
     (by decide) (by decide) (by decide)⟩

/-!
## Helper lemmas: `OrderedDict` insertion
-/

theorem odGet_odSet_same (d : List (PyStr × PyStr)) (k v : PyStr) :
    odGet (odSet d k v) k = some v := by
  induction d with
  | nil => simp [odSet, odGet]
  | cons p rest ih =>
    obtain ⟨k', v'⟩ := p
    by_cases h : k' = k
    · subst h; simp [odSet, odGet]
    · simp [odSet, odGet, h, ih]

theorem odGet_odSet_other (d : List (PyStr × PyStr)) (k v k' : PyStr)
    (h : k' ≠ k) : odGet (odSet d k v) k' = odGet d k' := by
  have hne : ¬ k = k' := fun hh => h hh.symm
  induction d with
  | nil => simp [odSet, odGet, hne]
  | cons p rest ih =>
    obtain ⟨k0, v0⟩ := p
    by_cases h0 : k0 = k
    · subst h0
      simp [odSet, odGet, hne]
    · simp [odSet, odGet, h0, ih]

theorem odSet_keys (d : List (PyStr × PyStr)) (k v : PyStr) :
    (odSet d k v).map Prod.fst =
      if k ∈ d.map Prod.fst then d.map Prod.fst else d.map Prod.fst ++ [k] := by
  induction d with
  | nil => simp [odSet]
  | cons p rest ih =>
    obtain ⟨k0, v0⟩ := p
    by_cases h0 : k0 = k
    · subst h0; simp [odSet]
    · have : ¬ k = k0 := fun hh => h0 hh.symm
      by_cases hmem : k ∈ rest.map Prod.fst
      · simp [odSet, h0, ih, hmem, this]
      · simp [odSet, h0, ih, hmem, this]

/-- The dictionary built by folding `OrderedDict` assignment over a pair
list: key positions follow first occurrences. -/
def firstKeys (ks : List PyStr) : List PyStr :=
  ks.foldl (fun acc k => if k ∈ acc then acc else acc ++ [k]) []

/-- The value the claim predicts for a key: the value of its last
occurrence in the token list. -/
def lastVal (pairs : List (PyStr × PyStr)) (k : PyStr) : Option PyStr :=
  pairs.foldl (fun acc p => if p.1 = k then some p.2 else acc) none

theorem foldl_odSet_keys (pairs : List (PyStr × PyStr)) :
    ∀ d : List (PyStr × PyStr),
      (pairs.foldl (fun d p => odSet d p.1 p.2) d).map Prod.fst =
        (pairs.map Prod.fst).foldl
          (fun acc k => if k ∈ acc then acc else acc ++ [k]) (d.map Prod.fst) := by
  induction pairs with
  | nil => intro d; rfl
  | cons p rest ih =>
    intro d
    simp only [List.foldl_cons, List.map_cons]
    rw [ih, odSet_keys]

theorem foldl_odSet_get (pairs : List (PyStr × PyStr)) (k : PyStr) :
    ∀ d : List (PyStr × PyStr),
      odGet (pairs.foldl (fun d p => odSet d p.1 p.2) d) k =
        pairs.foldl (fun acc p => if p.1 = k then some p.2 else acc) (odGet d k) := by
  induction pairs with
  | nil => intro d; rfl
  | cons p rest ih =>
    intro d
    simp only [List.foldl_cons]
    rw [ih]
    by_cases hp : p.1 = k
    · subst hp; rw [odGet_odSet_same]; simp
    · rw [odGet_odSet_other d p.1 p.2 k (Ne.symm hp)]; simp [hp]

theorem extract_args_mapped (pairs : List (PyStr × PyStr))
    (h : ∀ p ∈ pairs, ':' ∉ p.1 ∧ ':' ∉ p.2) :
    ∀ d : List (PyStr × PyStr),
      (pairs.map (fun p => p.1 ++ ':' :: p.2)).foldlM
        (fun d arg =>
          match pySplit ':' arg with
          | [k, v] => some (odSet d k v)
          | _ => none) d =
        some (pairs.foldl (fun d p => odSet d p.1 p.2) d) := by
  induction pairs with
  | nil => intro d; rfl
  | cons p rest ih =>
    intro d
    have hp := h p (List.mem_cons_self p rest)
    have hrest : ∀ q ∈ rest, ':' ∉ q.1 ∧ ':' ∉ q.2 :=
      fun q hq => h q (List.mem_cons_of_mem p hq)
    simp only [List.map_cons, List.foldlM_cons]
    rw [pySplit_pair ':' p.1 p.2 hp.1 hp.2]
    simpa using ih hrest (odSet d p.1 p.2)

/-!
## Claim C9: duplicate argument keys
-/

/-- C9: building a start line whose tokens repeat a key raises no error;
the dictionary maps every key to the value of its last occurrence
(the `OrderedDict` assignment overwrites), and the key order follows
first occurrences. -/
theorem C9_duplicate_keys_last_wins (pairs : List (PyStr × PyStr))
    (hcolon : ∀ p ∈ pairs, ':' ∉ p.1 ∧ ':' ∉ p.2)
    (_hdup : ¬ (pairs.map Prod.fst).Nodup) :
    extract_args (pairs.map (fun p => p.1 ++ ':' :: p.2)) =
        some (pairs.foldl (fun d p => odSet d p.1 p.2) []) ∧
    (pairs.foldl (fun d p => odSet d p.1 p.2) []).map Prod.fst =
        firstKeys (pairs.map Prod.fst) ∧
    ∀ k, odGet (pairs.foldl (fun d p => odSet d p.1 p.2) []) k = lastVal pairs k := by
  refine ⟨?_, ?_, ?_⟩
  · rw [extract_args]
    exact extract_args_mapped pairs hcolon []
  · rw [foldl_odSet_keys, firstKeys]
    rfl
  · intro k
    rw [foldl_odSet_get, lastVal]
    rfl

/-- Witness for `C9_duplicate_keys_last_wins` on the tokens
`["k:a", "j:b", "k:c"]`: no error, `k` keeps its first position and maps
to `"c"`, the value of the last `k` token. -/
theorem C9_witness :
    extract_args [("k:a").toList, ("j:b").toList, ("k:c").toList] =
        some [(("k").toList, ("c").toList), (("j").toList, ("b").toList)] ∧
    odGet [(("k").toList, ("c").toList), (("j").toList, ("b").toList)]
        (("k").toList) =
      lastVal [(("k").toList, ("a").toList), (("j").toList, ("b").toList),
        (("k").toList, ("c").toList)] (("k").toList) := by
  have h := C9_duplicate_keys_last_wins
    [(("k").toList, ("a").toList), (("j").toList, ("b").toList),
      (("k").toList, ("c").toList)]
    (by decide) (by decide)
  refine ⟨?_, ?_⟩
  · have h1 := h.1
    simpa using h1
  · have h3 := h.2.2 (("k").toList)
    simpa using h3

/-!
## Claim C8: `UnknownExpansionModule` message
-/

/-- Registry with one module loaded from the directory `/mods`. -/
def c8_modules : List (PyStr × ExpModule) :=
  [((("helper").toList : PyStr), ⟨("helper").toList, ("/mods").toList⟩)]

/-- A block whose command function is absent from `c8_modules`. -/
def c8_block : AutogenBlock := ⟨0, 2, ⟨("missing").toList, []⟩, ['#']⟩

/-- Oracle for the external content-provider and template machinery; never
reached on the failing input. -/
def c8_oracle : ExpModule → ModuleCmd → Except RenderErr PyStr := fun _ _ => .ok []

/-- C8: `render_block` does raise `UnknownExpansionModule` and the message
names the missing function, but kigen.py line 268 evaluates
`'\n'.format([...])` instead of `'\n'.join([...])`, so the message
contains only a newline where the searched directories should be listed:
the directory `/mods` of the searched registry does not occur in the
message, although the intent (the discarded `- {}` bullet list built on
line 268) and the spec say it must be listed. -/
theorem C8_directories_not_listed :
    render_block c8_oracle c8_block c8_modules =
        .error (.unknownModule (unknown_module_message (("missing").toList) c8_modules)) ∧
    pyIn (("missing").toList)
        (unknown_module_message (("missing").toList) c8_modules) = true ∧
    c8_modules.map (fun p => p.2.base_path) = [("/mods").toList] ∧
    pyIn (("/mods").toList)
        (unknown_module_message (("missing").toList) c8_modules) = false := by
  refine ⟨rfl, ?_, rfl, ?_⟩ <;> decide

/-!
## Claim C1: chunk count and content of `split_file_at_blocks`
-/

/-- Line index at which chunk `i` begins: line `0` for the first chunk,
one past the end line of block `i-1` afterwards. -/
def chunkLo (idx : Nat) (bs : List AutogenBlock) : Nat → Nat
  | 0 => idx
  | i + 1 =>
    match bs.get? i with
    | some b => b.end_ + 1
    | none => 0

theorem chunkLo_cons (idx : Nat) (b : AutogenBlock) (rest : List AutogenBlock)
    (i : Nat) : chunkLo idx (b :: rest) (i + 1) = chunkLo (b.end_ + 1) rest i := by
  cases i with
  | zero => rfl
  | succ j => rfl

theorem splitFileAux_length (lines : List PyStr) :
    ∀ (bs : List AutogenBlock) (idx : Nat),
      (splitFileAux lines idx bs).length = bs.length := by
  intro bs
  induction bs with
  | nil => intro idx; rfl
  | cons b rest ih => intro idx; simp [splitFileAux, ih]

theorem splitFileAux_get? (lines : List PyStr) :
    ∀ (bs : List AutogenBlock) (idx i : Nat),
      (splitFileAux lines idx bs).get? i =
        (bs.get? i).map (fun b =>
          pyJoin ['\n']
            ((lines.drop (chunkLo idx bs i)).take (b.start - chunkLo idx bs i))) := by
  intro bs
  induction bs with
  | nil => intro idx i; rfl
  | cons b rest ih =>
    intro idx i
    cases i with
    | zero => rfl
    | succ j =>
      simp only [splitFileAux, List.get?_cons_succ, chunkLo_cons]
      exact ih (b.end_ + 1) j

/-- C1 (amended): for a block sequence of `N` blocks produced by the
scanner, `split_file_at_blocks` returns exactly `N` passthrough chunks —
not `N+1`: the loop appends one chunk per block and nothing after the last
block.  Chunk `i` is still the text of the lines strictly before the start
line of block `i` and strictly after the end line of block `i-1` (chunk 0
starting at line 0), but the lines after the final block are not returned,
and a file with zero blocks yields zero chunks, not one. -/
theorem C1_split_returns_N_chunks (text : PyStr) (bs : List AutogenBlock)
    (_h : extract_blocks text = .ok bs) :
    (split_file_at_blocks text bs).length = bs.length ∧
    ∀ i, (split_file_at_blocks text bs).get? i =
      (bs.get? i).map (fun b =>
        pyJoin ['\n']
          (((pySplitlines text).drop (chunkLo 0 bs i)).take
            (b.start - chunkLo 0 bs i))) :=
  ⟨splitFileAux_length (pySplitlines text) bs 0,
   fun i => splitFileAux_get? (pySplitlines text) bs 0 i⟩

/-- C1 counterexample: the file `"A"` contains zero blocks, and
`split_file_at_blocks` returns zero chunks — not one chunk equal to the
whole file as the claim states. -/
theorem C1_counterexample :
    extract_blocks (("A").toList) = .ok [] ∧
    split_file_at_blocks (("A").toList) [] = [] ∧
    (split_file_at_blocks (("A").toList) []).length ≠ 0 + 1 := by
  refine ⟨rfl, rfl, ?_⟩
  decide

/-- The fixture file used by several witnesses: one block spanning lines
1-2, preceded by `"A"` and followed by `"B"`. -/
def wText : PyStr := ("A\n# KIGEN_start f\n# KIGEN_end\nB").toList

/-- The block the scanner returns for `wText`. -/
def wBlock : AutogenBlock := ⟨1, 2, ⟨['f'], []⟩, ['#']⟩

/-- Witness for `C1_split_returns_N_chunks` on `wText`: one block, one
chunk, and the chunk is the text before the block. -/
theorem C1_witness :
    (split_file_at_blocks wText [wBlock]).length = [wBlock].length ∧
    (split_file_at_blocks wText [wBlock]).get? 0 =
      ([wBlock].get? 0).map (fun b =>
        pyJoin ['\n']
          (((pySplitlines wText).drop (chunkLo 0 [wBlock] 0)).take
            (b.start - chunkLo 0 [wBlock] 0))) :=
  ⟨(C1_split_returns_N_chunks wText [wBlock] rfl).1,
   (C1_split_returns_N_chunks wText [wBlock] rfl).2 0⟩

/-!
## Helper lemmas: the scanner
-/

theorem scanAux_append (l1 l2 : List PyStr) :
    ∀ (idx : Nat) (mode : ScanSt) (result : List AutogenBlock),
      scanAux idx mode result (l1 ++ l2) =
        match scanAux idx mode result l1 with
        | .error e => .error e
        | .ok (m, r) => scanAux (idx + l1.length) m r l2 := by
  induction l1 with
  | nil => intro idx mode result; simp [scanAux]
  | cons line rest ih =>
    intro idx mode result
    simp only [List.cons_append, scanAux]
    cases h : lineStep idx line mode result with
    | error e => rfl
    | ok s =>
      obtain ⟨m, r⟩ := s
      dsimp only
      rw [List.append_eq, ih (idx + 1) m r]
      have harith : idx + 1 + rest.length = idx + (rest.length + 1) := by omega
      simp [harith]

theorem scanAux_error_localize (ls : List PyStr) :
    ∀ (idx : Nat) (mode : ScanSt) (result : List AutogenBlock) (e : ScanErr),
      scanAux idx mode result ls = .error e →
      ∃ k, k < ls.length ∧
        ∃ m r, scanAux idx mode result (ls.take k) = .ok (m, r) ∧
          ∃ line, ls.get? k = some line ∧ lineStep (idx + k) line m r = .error e := by
  induction ls with
  | nil => intro idx mode result e h; exact absurd h (by simp [scanAux])
  | cons line rest ih =>
    intro idx mode result e h
    rw [scanAux] at h
    cases hstep : lineStep idx line mode result with
    | error e' =>
      rw [hstep] at h
      injection h with he
      refine ⟨0, by simp, mode, result, rfl, line, rfl, ?_⟩
      rw [he] at hstep
      simpa using hstep
    | ok s =>
      obtain ⟨m, r⟩ := s
      rw [hstep] at h
      obtain ⟨k, hk, m', r', hpre, line', hline, hstep'⟩ := ih (idx + 1) m r e h
      refine ⟨k + 1, by simpa using hk, m', r', ?_, line', by simpa using hline, ?_⟩
      · simp only [List.take_succ_cons, scanAux, hstep]
        exact hpre
      · have harith : idx + (k + 1) = idx + 1 + k := by omega
        rw [harith]
        exact hstep'

theorem stopCheck_ne_nested (idx : Nat) (line : PyStr) (mode : ScanSt)
    (result : List AutogenBlock) (i b : Nat) :
    stopCheck idx line mode result ≠ .error (.nested i b) := by
  unfold stopCheck
  by_cases h : pyIn STOP_MARKER line
  · simp only [h, if_true]
    cases mode <;> simp
  · simp [h]

/-- Characterization of the errors of one scanner step. -/
theorem lineStep_error_iff (idx : Nat) (line : PyStr) (mode : ScanSt)
    (result : List AutogenBlock) :
    ((∃ i b, lineStep idx line mode result = .error (.nested i b)) ↔
      (pyIn START_MARKER line = true ∧ ∃ b cm cmd, mode = .inside b cm cmd)) ∧
    ((∃ i, lineStep idx line mode result = .error (.dangling i)) ↔
      (pyIn START_MARKER line = false ∧ pyIn STOP_MARKER line = true ∧
        mode = .outside)) := by
  constructor
  · constructor
    · rintro ⟨i, b, h⟩
      unfold lineStep at h
      by_cases hstart : pyIn START_MARKER line
      · refine ⟨hstart, ?_⟩
        cases mode with
        | outside =>
          exfalso
          simp only [hstart, if_true] at h
          cases hcmd : extract_command line with
          | none => rw [hcmd] at h; simp at h
          | some p =>
            obtain ⟨cm, cmd⟩ := p
            rw [hcmd] at h
            exact stopCheck_ne_nested idx line _ result i b h
        | inside b' cm cmd => exact ⟨b', cm, cmd, rfl⟩
      · exfalso
        simp only [hstart, if_false] at h
        exact stopCheck_ne_nested idx line mode result i b (by simpa using h)
    · rintro ⟨hstart, b, cm, cmd, hmode⟩
      subst hmode
      refine ⟨idx, b, ?_⟩
      unfold lineStep
      rw [hstart]
      simp
  · constructor
    · rintro ⟨i, h⟩
      unfold lineStep at h
      by_cases hstart : pyIn START_MARKER line
      · exfalso
        simp only [hstart, if_true] at h
        cases mode with
        | outside =>
          cases hcmd : extract_command line with
          | none => rw [hcmd] at h; simp at h
          | some p =>
            obtain ⟨cm, cmd⟩ := p
            rw [hcmd] at h
            unfold stopCheck at h
            by_cases hstop : pyIn STOP_MARKER line
            · simp [hstop] at h
            · simp [hstop] at h
        | inside b' cm' cmd' => simp at h
      · simp only [hstart, if_false] at h
        refine ⟨by simpa using hstart, ?_⟩
        unfold stopCheck at h
        by_cases hstop : pyIn STOP_MARKER line
        · refine ⟨hstop, ?_⟩
          simp only [hstop, if_true] at h
          cases mode with
          | outside => rfl
          | inside b' cm' cmd' => simp at h
        · simp [hstop] at h
    · rintro ⟨hstart, hstop, hmode⟩
      subst hmode
      refine ⟨idx, ?_⟩
      unfold lineStep
      rw [hstart]
      simp only [Bool.false_eq_true, if_false]
      unfold stopCheck
      rw [hstop]
      simp

theorem extract_blocks_error_iff (text : PyStr) (e : ScanErr) :
    extract_blocks text = .error e ↔
      scanAux 0 .outside [] (pySplitlines text) = .error e := by
  unfold extract_blocks
  cases h : scanAux 0 .outside [] (pySplitlines text) with
  | error e' => simp
  | ok s => obtain ⟨m, r⟩ := s; simp

theorem list_split_at_get? {α : Type} (l : List α) (k : Nat) (a : α)
    (h : l.get? k = some a) : l = l.take k ++ a :: l.drop (k + 1) := by
  induction l generalizing k with
  | nil => simp at h
  | cons x xs ih =>
    cases k with
    | zero =>
      simp only [List.get?_cons_zero, Option.some.injEq] at h
      simp [h]
    | succ j =>
      simp only [List.get?_cons_succ] at h
      simpa using ih j h

/-!
## Claim C5: when the scan errors are raised
-/

/-- C5 (amended): scanning raises `NestedBlockError` exactly when a line
containing the start-marker token is reached (all earlier lines scanned
without error) with the scanner already inside an open block.  It raises
`DanglingBlockEnd` exactly when a line containing the end-marker token BUT
NOT the start-marker token is reached with the scanner outside any block —
a line carrying both markers while outside does not dangle: the start
marker is processed first and the line opens (and immediately closes) a
block. -/
theorem C5_error_conditions (text : PyStr) :
    ((∃ i b, extract_blocks text = .error (.nested i b)) ↔
      (∃ k m r, scanAux 0 .outside [] ((pySplitlines text).take k) = .ok (m, r) ∧
        (∃ b cm cmd, m = .inside b cm cmd) ∧
        (∃ line, (pySplitlines text).get? k = some line ∧
          pyIn START_MARKER line = true))) ∧
    ((∃ i, extract_blocks text = .error (.dangling i)) ↔
      (∃ k r, scanAux 0 .outside [] ((pySplitlines text).take k) = .ok (.outside, r) ∧
        (∃ line, (pySplitlines text).get? k = some line ∧
          pyIn START_MARKER line = false ∧ pyIn STOP_MARKER line = true))) := by
  constructor
  · constructor
    · rintro ⟨i, b, h⟩
      rw [extract_blocks_error_iff] at h
      obtain ⟨k, hk, m, r, hpre, line, hline, hstep⟩ :=
        scanAux_error_localize (pySplitlines text) 0 .outside [] _ h
      obtain ⟨hstart, hins⟩ :=
        ((lineStep_error_iff (0 + k) line m r).1).1 ⟨i, b, hstep⟩
      exact ⟨k, m, r, hpre, hins, line, hline, hstart⟩
    · rintro ⟨k, m, r, hpre, ⟨b, cm, cmd, hmode⟩, line, hline, hstart⟩
      subst hmode
      have hk : k < (pySplitlines text).length := by
        by_contra hge
        rw [List.get?_eq_none.2 (by omega)] at hline
        exact Option.noConfusion hline
      have hsplit := list_split_at_get? (pySplitlines text) k line hline
      obtain ⟨i, b', hb⟩ :=
        ((lineStep_error_iff k line (.inside b cm cmd) r).1).2 ⟨hstart, b, cm, cmd, rfl⟩
      refine ⟨i, b', ?_⟩
      rw [extract_blocks_error_iff]
      conv_lhs => rw [hsplit]
      rw [scanAux_append, hpre]
      have hlen : ((pySplitlines text).take k).length = k := by
        simp [Nat.le_of_lt hk]
      dsimp only
      rw [hlen, Nat.zero_add, scanAux, hb]
  · constructor
    · rintro ⟨i, h⟩
      rw [extract_blocks_error_iff] at h
      obtain ⟨k, hk, m, r, hpre, line, hline, hstep⟩ :=
        scanAux_error_localize (pySplitlines text) 0 .outside [] _ h
      obtain ⟨hstart, hstop, hmode⟩ :=
        ((lineStep_error_iff (0 + k) line m r).2).1 ⟨i, hstep⟩
      subst hmode
      exact ⟨k, r, hpre, line, hline, hstart, hstop⟩
    · rintro ⟨k, r, hpre, line, hline, hstart, hstop⟩
      have hk : k < (pySplitlines text).length := by
        by_contra hge
        rw [List.get?_eq_none.2 (by omega)] at hline
        exact Option.noConfusion hline
      have hsplit := list_split_at_get? (pySplitlines text) k line hline
      obtain ⟨i, hb⟩ :=
        ((lineStep_error_iff k line .outside r).2).2 ⟨hstart, hstop, rfl⟩
      refine ⟨i, ?_⟩
      rw [extract_blocks_error_iff]
      conv_lhs => rw [hsplit]
      rw [scanAux_append, hpre]
      have hlen : ((pySplitlines text).take k).length = k := by
        simp [Nat.le_of_lt hk]
      dsimp only
      rw [hlen, Nat.zero_add, scanAux, hb]

/-- C5 counterexample: the single-line file `"# KIGEN_start KIGEN_end"`
contains the end-marker token on a line encountered while outside any
block (the scan starts outside), yet the scanner raises nothing: the
start marker is handled first, so the line opens a block and the
end-marker check then closes it, yielding one zero-length block. -/
theorem C5_counterexample :
    pyIn STOP_MARKER (("# KIGEN_start KIGEN_end").toList) = true ∧
    extract_blocks (("# KIGEN_start KIGEN_end").toList) =
      .ok [⟨0, 0, ⟨("KIGEN_end").toList, []⟩, ['#']⟩] := by
  exact ⟨by decide, rfl⟩

theorem extract_blocks_ok_iff (text : PyStr) (bs : List AutogenBlock) :
    extract_blocks text = .ok bs ↔
      ∃ m, scanAux 0 .outside [] (pySplitlines text) = .ok (m, bs) := by
  unfold extract_blocks
  cases h : scanAux 0 .outside [] (pySplitlines text) with
  | error e => simp
  | ok s =>
    obtain ⟨m, r⟩ := s
    simp only [Except.ok.injEq, Prod.mk.injEq]
    constructor
    · rintro rfl
      exact ⟨m, rfl, rfl⟩
    · rintro ⟨m', _, hr⟩
      exact hr

/-- Lower bound on the start line of the next block the scanner can
complete: the pending start while inside, the current line otherwise. -/
def pendLB : ScanSt → Nat → Nat
  | .outside, idx => idx
  | .inside b _ _, _ => b

theorem lineStep_ok_cases (idx : Nat) (line : PyStr) (mode : ScanSt)
    (result : List AutogenBlock) (m : ScanSt) (r : List AutogenBlock)
    (h : lineStep idx line mode result = .ok (m, r)) :
    (r = result ∧ (m = mode ∨ ∃ cm cmd, mode = .outside ∧ m = .inside idx cm cmd)) ∨
    (∃ x : AutogenBlock, r = result ++ [x] ∧ m = .outside ∧ x.end_ = idx ∧
      x.start = pendLB mode idx) := by
  unfold lineStep stopCheck at h
  by_cases hstart : pyIn START_MARKER line
  · simp only [hstart, if_true] at h
    cases mode with
    | inside b cm cmd => simp at h
    | outside =>
      cases hcmd : extract_command line with
      | none => rw [hcmd] at h; simp at h
      | some p =>
        obtain ⟨cm, cmd⟩ := p
        rw [hcmd] at h
        by_cases hstop : pyIn STOP_MARKER line
        · simp only [hstop, if_true] at h
          injection h with h
          injection h with hm hr
          exact Or.inr ⟨⟨idx, idx, cmd, cm⟩, hr.symm, hm.symm, rfl, rfl⟩
        · simp only [hstop, Bool.false_eq_true, if_false] at h
          injection h with h
          injection h with hm hr
          exact Or.inl ⟨hr.symm, Or.inr ⟨cm, cmd, rfl, hm.symm⟩⟩
  · simp only [hstart, Bool.false_eq_true, if_false] at h
    by_cases hstop : pyIn STOP_MARKER line
    · simp only [hstop, if_true] at h
      cases mode with
      | outside => simp at h
      | inside b cm cmd =>
        injection h with h
        injection h with hm hr
        exact Or.inr ⟨⟨b, idx, cmd, cm⟩, hr.symm, hm.symm, rfl, rfl⟩
    · simp only [hstop, Bool.false_eq_true, if_false] at h
      injection h with h
      injection h with hm hr
      exact Or.inl ⟨hr.symm, Or.inl hm.symm⟩

theorem scanAux_blocks_inv (ls : List PyStr) :
    ∀ (idx : Nat) (mode : ScanSt) (result : List AutogenBlock)
      (mOut : ScanSt) (resOut : List AutogenBlock),
      scanAux idx mode result ls = .ok (mOut, resOut) →
      (∀ b cm cmd, mode = .inside b cm cmd → b ≤ idx) →
      ∃ tail, resOut = result ++ tail ∧
        (∀ x ∈ tail, pendLB mode idx ≤ x.start ∧ x.start ≤ x.end_) ∧
        List.Chain' (fun a b => a.end_ < b.start) tail := by
  induction ls with
  | nil =>
    intro idx mode result mOut resOut h hpend
    rw [scanAux] at h
    injection h with h
    injection h with _ hr
    exact ⟨[], by simp [hr], by simp, by simp⟩
  | cons line rest ih =>
    intro idx mode result mOut resOut h hpend
    rw [scanAux] at h
    cases hstep : lineStep idx line mode result with
    | error e => rw [hstep] at h; exact absurd h (by simp)
    | ok s =>
      obtain ⟨m1, r1⟩ := s
      rw [hstep] at h
      dsimp only at h
      have hpendLB_le : pendLB mode idx ≤ idx := by
        cases mode with
        | outside => exact Nat.le_refl idx
        | inside b cm cmd => exact hpend b cm cmd rfl
      rcases lineStep_ok_cases idx line mode result m1 r1 hstep with
        ⟨hr1, hm1⟩ | ⟨x, hr1, hm1, hxe, hxs⟩
      · have hpend1 : ∀ b cm cmd, m1 = .inside b cm cmd → b ≤ idx + 1 := by
          intro b cm cmd hb
          rcases hm1 with hm1 | ⟨cm', cmd', hmode, hm1⟩
          · rw [hm1] at hb
            exact Nat.le_succ_of_le (hpend b cm cmd hb)
          · rw [hm1] at hb
            injection hb with hb
            omega
        obtain ⟨tail, htail, hbound, hchain⟩ := ih (idx + 1) m1 r1 mOut resOut h hpend1
        refine ⟨tail, by rw [htail, hr1], ?_, hchain⟩
        intro y hy
        obtain ⟨hlb, hse⟩ := hbound y hy
        refine ⟨?_, hse⟩
        rcases hm1 with hm1 | ⟨cm', cmd', hmode, hm1⟩
        · rw [hm1] at hlb
          cases mode with
          | outside => simp only [pendLB] at hlb ⊢; omega
          | inside b cm cmd => exact hlb
        · rw [hm1] at hlb
          rw [hmode]
          simp only [pendLB] at hlb ⊢
          omega
      · have hpend1 : ∀ b cm cmd, m1 = .inside b cm cmd → b ≤ idx + 1 := by
          intro b cm cmd hb
          rw [hm1] at hb
          exact absurd hb (by simp)
        obtain ⟨tail, htail, hbound, hchain⟩ := ih (idx + 1) m1 r1 mOut resOut h hpend1
        refine ⟨x :: tail, ?_, ?_, ?_⟩
        · rw [htail, hr1]
          simp
        · intro y hy
          rcases List.mem_cons.1 hy with hy | hy
          · subst hy
            refine ⟨Nat.le_of_eq hxs.symm, ?_⟩
            rw [hxs, hxe]
            exact hpendLB_le
          · obtain ⟨hlb, hse⟩ := hbound y hy
            rw [hm1] at hlb
            simp only [pendLB] at hlb
            exact ⟨by omega, hse⟩
        · rw [List.chain'_cons']
          refine ⟨?_, hchain⟩
          intro y hy
          have hmem : y ∈ tail := List.mem_of_mem_head? hy
          obtain ⟨hlb, _⟩ := hbound y hmem
          rw [hm1] at hlb
          simp only [pendLB] at hlb
          rw [hxe]
          omega

/-!
## Claim C6: ordering of the scanned blocks
-/

/-- C6 (amended): every block the scanner returns satisfies
`startLine ≤ endLine` (NOT strictly: a line containing both markers
yields a block whose start and end coincide), and consecutive blocks are
strictly increasing and non-overlapping: each block ends strictly before
the next one starts. -/
theorem C6_blocks_ordered (text : PyStr) (bs : List AutogenBlock)
    (h : extract_blocks text = .ok bs) :
    (∀ b ∈ bs, b.start ≤ b.end_) ∧
    List.Chain' (fun a b => a.end_ < b.start) bs := by
  obtain ⟨m, hscan⟩ := (extract_blocks_ok_iff text bs).1 h
  obtain ⟨tail, htail, hbound, hchain⟩ :=
    scanAux_blocks_inv (pySplitlines text) 0 .outside [] m bs hscan
      (fun b cm cmd hb => absurd hb (by simp))
  simp only [List.nil_append] at htail
  subst htail
  exact ⟨fun b hb => (hbound b hb).2, hchain⟩

/-- C6 counterexample: the file `"// KIGEN_start KIGEN_end"` scans
successfully to a single block with `startLine = endLine = 0`, violating
the claimed strict inequality `startLine < endLine`. -/
theorem C6_counterexample :
    extract_blocks (("// KIGEN_start KIGEN_end").toList) =
      .ok [⟨0, 0, ⟨("KIGEN_end").toList, []⟩, ("//").toList⟩] ∧
    ¬ ((⟨0, 0, ⟨("KIGEN_end").toList, []⟩, ("//").toList⟩ : AutogenBlock).start <
        (⟨0, 0, ⟨("KIGEN_end").toList, []⟩, ("//").toList⟩ : AutogenBlock).end_) := by
  exact ⟨rfl, by decide⟩

/-- Two-block fixture for the C6 witness. -/
def w6Text : PyStr :=
  ("# KIGEN_start f\n# KIGEN_end\n# KIGEN_start g\n# KIGEN_end").toList

/-- The blocks the scanner returns for `w6Text`. -/
def w6Blocks : List AutogenBlock :=
  [⟨0, 1, ⟨['f'], []⟩, ['#']⟩, ⟨2, 3, ⟨['g'], []⟩, ['#']⟩]

/-- Witness for `C6_blocks_ordered` on a concrete two-block file. -/
theorem C6_witness :
    (∀ b ∈ w6Blocks, b.start ≤ b.end_) ∧
    List.Chain' (fun a b => a.end_ < b.start) w6Blocks :=
  C6_blocks_ordered w6Text w6Blocks rfl

/-!
## Claim C10: unterminated trailing block
-/

theorem scanAux_no_markers (ls : List PyStr)
    (h : ∀ l ∈ ls, pyIn START_MARKER l = false ∧ pyIn STOP_MARKER l = false) :
    ∀ (idx : Nat) (mode : ScanSt) (result : List AutogenBlock),
      scanAux idx mode result ls = .ok (mode, result) := by
  induction ls with
  | nil => intro idx mode result; rfl
  | cons line rest ih =>
    intro idx mode result
    have hline := h line (List.mem_cons_self line rest)
    have hrest : ∀ l ∈ rest, pyIn START_MARKER l = false ∧ pyIn STOP_MARKER l = false :=
      fun l hl => h l (List.mem_cons_of_mem line hl)
    rw [scanAux]
    have hstep : lineStep idx line mode result = .ok (mode, result) := by
      unfold lineStep stopCheck
      rw [hline.1, hline.2]
      simp
    rw [hstep]
    exact ih hrest (idx + 1) mode result

/-- C10: when a file ends while a block is still open (a start-marker
line parsed successfully, followed only by marker-free lines, with no end
marker), the scanner raises no error and returns exactly the blocks
completed before that start line: the unterminated trailing block is
silently dropped. -/
theorem C10_unterminated_block_dropped (text : PyStr) (pfx : List PyStr)
    (s : PyStr) (tail : List PyStr) (bs : List AutogenBlock)
    (hsplit : pySplitlines text = pfx ++ s :: tail)
    (hpfx : scanAux 0 .outside [] pfx = .ok (.outside, bs))
    (hs_start : pyIn START_MARKER s = true)
    (hs_stop : pyIn STOP_MARKER s = false)
    (hs_parse : extract_command s ≠ none)
    (htail : ∀ l ∈ tail, pyIn START_MARKER l = false ∧ pyIn STOP_MARKER l = false) :
    extract_blocks text = .ok bs := by
  rw [extract_blocks_ok_iff, hsplit]
  cases hcmd : extract_command s with
  | none => exact absurd hcmd hs_parse
  | some p =>
    obtain ⟨cm, cmd⟩ := p
    refine ⟨.inside pfx.length cm cmd, ?_⟩
    rw [scanAux_append, hpfx]
    dsimp only
    rw [Nat.zero_add, scanAux]
    have hstep : lineStep pfx.length s .outside bs =
        .ok (.inside pfx.length cm cmd, bs) := by
      unfold lineStep stopCheck
      rw [hs_start, hcmd, hs_stop]
      simp
    rw [hstep]
    exact scanAux_no_markers tail htail (pfx.length + 1) _ bs

/-- Witness for `C10_unterminated_block_dropped`: the file
`"A\n# KIGEN_start f\nB"` opens a block on line 1 that is never closed;
the scan succeeds and returns no block. -/
theorem C10_witness :
    extract_blocks (("A\n# KIGEN_start f\nB").toList) = .ok [] :=
  C10_unterminated_block_dropped (("A\n# KIGEN_start f\nB").toList)
    [("A").toList] (("# KIGEN_start f").toList) [("B").toList] []
    rfl rfl (by decide) (by decide) (by decide) (by decide)

/-!
## Helper lemmas: locating the marker (`pyFind`)
-/

theorem pyFind_not_found (needle : PyStr) (hne : needle ≠ []) :
    ∀ hay : PyStr, pyFind needle hay = none →
      ∀ p, ¬ needle.isPrefixOf (hay.drop p) := by
  intro hay
  induction hay with
  | nil =>
    intro _ p
    cases needle with
    | nil => exact absurd rfl hne
    | cons c t => simp [List.isPrefixOf]
  | cons x xs ih =>
    intro h p
    rw [pyFind] at h
    by_cases hpre : needle.isPrefixOf (x :: xs)
    · rw [if_pos hpre] at h
      exact Option.noConfusion h
    · rw [if_neg hpre] at h
      have hrec : pyFind needle xs = none := by
        cases hfind : pyFind needle xs with
        | none => rfl
        | some i => rw [hfind] at h; simp at h
      cases p with
      | zero => simpa using hpre
      | succ q => exact ih hrec q

theorem pyFind_append (needle xs ys : PyStr)
    (h : ∀ p, p < xs.length → ¬ needle.isPrefixOf (xs.drop p ++ ys)) :
    pyFind needle (xs ++ ys) = (pyFind needle ys).map (· + xs.length) := by
  induction xs with
  | nil =>
    simp only [List.nil_append, List.length_nil]
    cases hy : pyFind needle ys with
    | none => simp
    | some i => simp
  | cons x xs ih =>
    have h0 : ¬ needle.isPrefixOf (x :: (xs ++ ys)) := by
      have h0a := h 0 (by simp)
      rw [List.drop_zero, List.cons_append] at h0a
      exact h0a
    have hrest : ∀ p, p < xs.length → ¬ needle.isPrefixOf (xs.drop p ++ ys) := by
      intro p hp
      have := h (p + 1) (by simpa using Nat.succ_lt_succ hp)
      simpa using this
    rw [List.cons_append, pyFind, if_neg h0, ih hrest]
    cases hy : pyFind needle ys with
    | none => simp
    | some i =>
      simp only [Option.map_some', Option.some.injEq, List.length_cons]
      omega

theorem prefix_get? (l₁ l₂ : List Char) (h : l₁ <+: l₂) (d : Nat)
    (hd : d < l₁.length) : l₂.get? d = l₁.get? d := by
  obtain ⟨t, rfl⟩ := h
  rw [List.get?_eq_getElem?, List.get?_eq_getElem?, List.getElem?_append_left hd]

theorem isPrefixOf_shorter (needle a b : List Char)
    (h : needle.isPrefixOf (a ++ b)) (hlen : needle.length ≤ a.length) :
    needle.isPrefixOf a := by
  rw [List.isPrefixOf_iff_prefix] at h ⊢
  have heq : needle = a.take needle.length := by
    have h1 := List.prefix_iff_eq_take.1 h
    rw [List.take_append_eq_append_take] at h1
    have h2 : needle.length - a.length = 0 := by omega
    rw [h2, List.take_zero, List.append_nil] at h1
    exact h1
  rw [heq]
  exact List.take_prefix needle.length a

/-!
## Helper lemmas: `pyStrip`
-/

theorem dropWhile_eq_self_of_length {α : Type} (p : α → Bool) (l : List α)
    (h : (l.dropWhile p).length = l.length) : l.dropWhile p = l :=
  (List.dropWhile_sublist p).eq_of_length h

theorem dropWhile_eq_self_append {α : Type} (p : α → Bool) (l l2 : List α)
    (h : l.dropWhile p = l) (hne : l ≠ []) :
    (l ++ l2).dropWhile p = l ++ l2 := by
  cases l with
  | nil => exact absurd rfl hne
  | cons a t =>
    have ha : ¬ p a = true := by
      intro ha
      rw [List.dropWhile_cons_of_pos ha] at h
      have hlen := congrArg List.length h
      have hle := (List.dropWhile_sublist (l := t) p).length_le
      simp at hlen
      omega
    rw [List.cons_append, List.dropWhile_cons_of_neg ha]

theorem strip_parts (x : PyStr) (h : pyStrip x = x) :
    stripLeft x = x ∧ stripRight x = x := by
  have hsr_le : (stripRight x).length ≤ x.length := by
    unfold stripRight
    have := (List.dropWhile_sublist (l := x.reverse) isWs).length_le
    simpa using this
  have hsl_le : (pyStrip x).length ≤ (stripRight x).length := by
    unfold pyStrip stripLeft
    exact (List.dropWhile_sublist (l := stripRight x) isWs).length_le
  have hlen : (stripRight x).length = x.length := by
    rw [h] at hsl_le
    omega
  have hsr : stripRight x = x := by
    unfold stripRight at hlen ⊢
    have hlen2 : (x.reverse.dropWhile isWs).length = x.reverse.length := by
      simpa using hlen
    rw [dropWhile_eq_self_of_length isWs x.reverse hlen2, List.reverse_reverse]
  refine ⟨?_, hsr⟩
  rw [pyStrip, hsr] at h
  exact h

theorem pyStrip_append_space (x : PyStr) (h : pyStrip x = x) :
    pyStrip (x ++ [' ']) = x := by
  obtain ⟨hsl, hsr⟩ := strip_parts x h
  have hsr2 : stripRight (x ++ [' ']) = stripRight x := by
    unfold stripRight
    rw [List.reverse_append]
    have : ([' '] : PyStr).reverse = [' '] := rfl
    rw [this, List.singleton_append, List.dropWhile_cons_of_pos (by decide)]
  rw [pyStrip, hsr2, hsr, hsl]

theorem pyStrip_space_cons (x : PyStr) (h : pyStrip x = x) :
    pyStrip (' ' :: x) = x := by
  obtain ⟨hsl, hsr⟩ := strip_parts x h
  cases hx : x with
  | nil => rfl
  | cons c t =>
    rw [← hx]
    have hxne : x ≠ [] := by rw [hx]; exact List.cons_ne_nil c t
    have hrevne : x.reverse ≠ [] := by simpa using hxne
    have hrev : x.reverse.dropWhile isWs = x.reverse := by
      have := congrArg List.reverse hsr
      unfold stripRight at this
      simpa using this
    have hsr2 : stripRight (' ' :: x) = ' ' :: x := by
      unfold stripRight
      rw [show (' ' :: x).reverse = x.reverse ++ [' '] from by simp]
      rw [dropWhile_eq_self_append isWs x.reverse [' '] hrev hrevne]
      simp
    rw [pyStrip, hsr2]
    unfold stripLeft
    rw [List.dropWhile_cons_of_pos (by decide)]
    exact hsl

theorem pyStrip_eq_self_of_ends (x : PyStr)
    (hh : ∀ c, x.head? = some c → ¬ isWs c = true)
    (hl : ∀ c, x.getLast? = some c → ¬ isWs c = true) : pyStrip x = x := by
  have hsr : stripRight x = x := by
    unfold stripRight
    cases hx : x.reverse with
    | nil =>
      have : x = [] := by simpa using congrArg List.reverse hx
      rw [this]
      rfl
    | cons d t =>
      have hd : x.getLast? = some d := by
        rw [← List.head?_reverse, hx]
        rfl
      rw [List.dropWhile_cons_of_neg (hl d hd), ← hx, List.reverse_reverse]
  rw [pyStrip, hsr]
  unfold stripLeft
  cases x with
  | nil => rfl
  | cons a t => rw [List.dropWhile_cons_of_neg (hh a rfl)]

/-!
## Helper lemmas: shape of `command_to_cmdstr`
-/

theorem pyJoin_head? (sep : PyStr) (p : PyStr) (ps : List PyStr) (hp : p ≠ []) :
    (pyJoin sep (p :: ps)).head? = p.head? := by
  cases ps with
  | nil => rfl
  | cons q ps =>
    rw [pyJoin_cons sep p (q :: ps) (by simp)]
    cases p with
    | nil => exact absurd rfl hp
    | cons a t => rfl

theorem pyJoin_append_ne_nil (sep : PyStr) :
    ∀ (ps : List PyStr) (p : PyStr), p ≠ [] → pyJoin sep (ps ++ [p]) ≠ [] := by
  intro ps
  induction ps with
  | nil => intro p hp; simpa [pyJoin] using hp
  | cons q ps ih =>
    intro p hp
    rw [List.cons_append, pyJoin_cons sep q (ps ++ [p]) (by simp)]
    intro hnil
    rw [List.append_assoc] at hnil
    have := List.append_eq_nil.1 hnil
    exact absurd this.2 (by simp [ih p hp])

theorem pyJoin_getLast? (sep : PyStr) :
    ∀ (ps : List PyStr) (p : PyStr), p ≠ [] →
      (pyJoin sep (ps ++ [p])).getLast? = p.getLast? := by
  intro ps
  induction ps with
  | nil => intro p hp; rfl
  | cons q ps ih =>
    intro p hp
    rw [List.cons_append, pyJoin_cons sep q (ps ++ [p]) (by simp)]
    rw [List.getLast?_append_of_ne_nil (q ++ sep) (pyJoin_append_ne_nil sep ps p hp)]
    exact ih p hp

theorem pySplit_pyJoin (parts : List PyStr)
    (h : ∀ p ∈ parts, ' ' ∉ p) (hne : parts ≠ []) :
    pySplit ' ' (pyJoin [' '] parts) = parts := by
  induction parts with
  | nil => exact absurd rfl hne
  | cons p ps ih =>
    cases ps with
    | nil =>
      have hp := h p (List.mem_cons_self p [])
      show pySplitAux ' ' [] p = [p]
      rw [pySplitAux_no_sep ' ' p hp []]
      rfl
    | cons q ps' =>
      have hp := h p (List.mem_cons_self p (q :: ps'))
      have hps : ∀ x ∈ q :: ps', ' ' ∉ x :=
        fun x hx => h x (List.mem_cons_of_mem p hx)
      rw [pyJoin_cons [' '] p (q :: ps') (by simp)]
      have hform : p ++ [' '] ++ pyJoin [' '] (q :: ps') =
          p ++ ' ' :: pyJoin [' '] (q :: ps') := by
        rw [List.append_assoc]
        rfl
      rw [hform]
      show pySplitAux ' ' [] (p ++ ' ' :: pyJoin [' '] (q :: ps')) = p :: q :: ps'
      rw [pySplitAux_sep_split ' ' p (pyJoin [' '] (q :: ps')) hp []]
      rw [List.reverse_nil, List.nil_append]
      have := ih hps (by simp)
      rw [pySplit] at this
      rw [this]

theorem odSet_append_of_not_mem (d : List (PyStr × PyStr)) (k v : PyStr)
    (h : k ∉ d.map Prod.fst) : odSet d k v = d ++ [(k, v)] := by
  induction d with
  | nil => rfl
  | cons p rest ih =>
    obtain ⟨k0, v0⟩ := p
    simp only [List.map_cons, List.mem_cons] at h
    push_neg at h
    rw [odSet, if_neg (fun hk => h.1 hk.symm), ih h.2, List.cons_append]

theorem foldl_odSet_of_nodup :
    ∀ (pairs : List (PyStr × PyStr)) (d : List (PyStr × PyStr)),
      (d.map Prod.fst ++ pairs.map Prod.fst).Nodup →
      pairs.foldl (fun d p => odSet d p.1 p.2) d = d ++ pairs := by
  intro pairs
  induction pairs with
  | nil => intro d _; simp
  | cons p rest ih =>
    intro d hnodup
    simp only [List.map_cons] at hnodup
    have hparts := List.nodup_append.1 hnodup
    have hmem : p.1 ∉ d.map Prod.fst := by
      intro hmem
      exact hparts.2.2 hmem (List.mem_cons_self p.1 (rest.map Prod.fst))
    rw [List.foldl_cons, odSet_append_of_not_mem d p.1 p.2 hmem]
    have hnodup2 : ((d ++ [p]).map Prod.fst ++ rest.map Prod.fst).Nodup := by
      have heq : (d ++ [p]).map Prod.fst ++ rest.map Prod.fst =
          d.map Prod.fst ++ p.1 :: rest.map Prod.fst := by
        simp
      rw [heq]
      exact hnodup
    have := ih (d ++ [p]) hnodup2
    rw [this, List.append_assoc]
    rfl

/-!
## Helper lemmas: parsing a reconstructed start line
-/

theorem pyFind_of_isPrefixOf (needle hay : PyStr) (hne : hay ≠ [])
    (h : needle.isPrefixOf hay) : pyFind needle hay = some 0 := by
  cases hay with
  | nil => exact absurd rfl hne
  | cons x t => rw [pyFind, if_pos h]

theorem start_marker_no_space : ∀ c ∈ START_MARKER, c ≠ ' ' := by decide

theorem pyFind_start_line (cm rest : PyStr) (hcm : pyIn START_MARKER cm = false) :
    pyFind START_MARKER (cm ++ ' ' :: (START_MARKER ++ ' ' :: rest)) =
      some (cm.length + 1) := by
  have hnone : pyFind START_MARKER cm = none := by
    rw [pyIn] at hcm
    cases hfind : pyFind START_MARKER cm with
    | none => rfl
    | some i => rw [hfind] at hcm; simp at hcm
  have hnotin := pyFind_not_found START_MARKER (by decide) cm hnone
  have hline : cm ++ ' ' :: (START_MARKER ++ ' ' :: rest) =
      (cm ++ [' ']) ++ (START_MARKER ++ ' ' :: rest) := by
    simp
  rw [hline]
  have hcond : ∀ p, p < (cm ++ [' ']).length →
      ¬ START_MARKER.isPrefixOf
        ((cm ++ [' ']).drop p ++ (START_MARKER ++ ' ' :: rest)) := by
    intro p hp hpre
    have hple : p ≤ cm.length := by
      simp only [List.length_append, List.length_cons, List.length_nil] at hp
      omega
    have hdrop : (cm ++ [' ']).drop p = cm.drop p ++ [' '] := by
      rw [List.drop_append_eq_append_drop]
      have : p - cm.length = 0 := by omega
      rw [this, List.drop_zero]
    rw [hdrop] at hpre
    by_cases hcase : p + START_MARKER.length ≤ cm.length
    · have hlen : START_MARKER.length ≤ (cm.drop p).length := by
        rw [List.length_drop]
        omega
      have : START_MARKER.isPrefixOf (cm.drop p) := by
        have hre : cm.drop p ++ [' '] ++ (START_MARKER ++ ' ' :: rest) =
            cm.drop p ++ ([' '] ++ (START_MARKER ++ ' ' :: rest)) := by
          rw [List.append_assoc]
        rw [hre] at hpre
        exact isPrefixOf_shorter START_MARKER (cm.drop p) _ hpre hlen
      exact hnotin p this
    · have hd : (cm.drop p).length = cm.length - p := List.length_drop p cm
      have hre : cm.drop p ++ [' '] ++ (START_MARKER ++ ' ' :: rest) =
          cm.drop p ++ ' ' :: (START_MARKER ++ ' ' :: rest) := by
        rw [List.append_assoc]
        rfl
      rw [hre] at hpre
      rw [List.isPrefixOf_iff_prefix] at hpre
      have hdlt : cm.length - p < START_MARKER.length := by omega
      have hget := prefix_get? START_MARKER _ hpre (cm.length - p) (by omega)
      have hgetsp : (cm.drop p ++ ' ' :: (START_MARKER ++ ' ' :: rest)).get?
          (cm.length - p) = some ' ' := by
        rw [List.get?_eq_getElem?, List.getElem?_append_right (by omega)]
        rw [hd]
        simp
      rw [hgetsp] at hget
      have hmem : (' ' : Char) ∈ START_MARKER := by
        have := List.get?_mem hget.symm
        exact this
      exact start_marker_no_space ' ' hmem rfl
  rw [pyFind_append START_MARKER (cm ++ [' ']) _ hcond]
  rw [pyFind_of_isPrefixOf START_MARKER _ (by simp)
    (by rw [List.isPrefixOf_iff_prefix]; exact List.prefix_append _ _)]
  simp

theorem split_marker_start_line (cm cmdstr : PyStr)
    (hcm_strip : pyStrip cm = cm) (hcm : pyIn START_MARKER cm = false)
    (hcmd_strip : pyStrip cmdstr = cmdstr) :
    split_marker (cm ++ ' ' :: (START_MARKER ++ ' ' :: cmdstr)) =
      some (cm, cmdstr) := by
  rw [split_marker, pyFind_start_line cm cmdstr hcm]
  simp only [Option.map_some']
  have htake : (cm ++ ' ' :: (START_MARKER ++ ' ' :: cmdstr)).take (cm.length + 1) =
      cm ++ [' '] := by
    rw [show cm ++ ' ' :: (START_MARKER ++ ' ' :: cmdstr) =
        (cm ++ [' ']) ++ (START_MARKER ++ ' ' :: cmdstr) from by simp]
    exact List.take_left' (by simp)
  have hdrop : (cm ++ ' ' :: (START_MARKER ++ ' ' :: cmdstr)).drop
      (cm.length + 1 + START_MARKER.length) = ' ' :: cmdstr := by
    rw [show cm ++ ' ' :: (START_MARKER ++ ' ' :: cmdstr) =
        ((cm ++ [' ']) ++ START_MARKER) ++ (' ' :: cmdstr) from by simp]
    exact List.drop_left' (by simp; omega)
  rw [htake, hdrop, pyStrip_append_space cm hcm_strip,
    pyStrip_space_cons cmdstr hcmd_strip]

/-!
## Claim C4: start-line reconstruction round trip
-/

/-- C4 (amended): the round trip `reconstructStart(parse(line)) == line`
holds for every start line in canonical form, i.e. every line that
`block_to_start_string` can produce from a comment marker `cm` that is
already stripped and does not contain the start-marker token, a nonempty
function token without whitespace, and arguments whose keys and values
contain no whitespace and no colons, with pairwise distinct keys: parsing
such a line with `extract_command` returns exactly the comment marker and
command it was built from, so reconstructing yields the identical line.
It does NOT hold for every start line whose arguments lack spaces and
colons: reconstruction forces the single-space canonical layout, so for
example the line `"KIGEN_start f"` (no comment marker) reconstructs to
`" KIGEN_start f"` with a spurious leading space. -/
theorem C4_start_line_round_trip (s e : Nat) (cm f : PyStr)
    (args : List (PyStr × PyStr))
    (hcm_strip : pyStrip cm = cm)
    (hcm_marker : pyIn START_MARKER cm = false)
    (hf_ne : f ≠ [])
    (hf_chars : ∀ c ∈ f, ¬ isWs c = true)
    (hargs : ∀ p ∈ args, (∀ c ∈ p.1, ¬ isWs c = true ∧ c ≠ ':') ∧
      (∀ c ∈ p.2, ¬ isWs c = true ∧ c ≠ ':'))
    (hnodup : (args.map Prod.fst).Nodup) :
    extract_command (block_to_start_string ⟨s, e, ⟨f, args⟩, cm⟩) =
      some (cm, ⟨f, args⟩) := by
  have htok_ws : ∀ p ∈ args.map (fun p => p.1 ++ ':' :: p.2), ∀ c ∈ p,
      ¬ isWs c = true := by
    intro t ht c hc
    obtain ⟨q, hq, rfl⟩ := List.mem_map.1 ht
    rcases List.mem_append.1 hc with hck | hcv
    · exact ((hargs q hq).1 c hck).1
    · rcases List.mem_cons.1 hcv with hcc | hcv
      · rw [hcc]; decide
      · exact ((hargs q hq).2 c hcv).1
  have htok_ne : ∀ p ∈ args.map (fun p => p.1 ++ ':' :: p.2), p ≠ [] := by
    intro t ht
    obtain ⟨q, hq, rfl⟩ := List.mem_map.1 ht
    simp
  have hparts_ws : ∀ p ∈ f :: args.map (fun p => p.1 ++ ':' :: p.2),
      ∀ c ∈ p, ¬ isWs c = true := by
    intro p hp
    rcases List.mem_cons.1 hp with hp | hp
    · rw [hp]; exact hf_chars
    · exact htok_ws p hp
  have hparts_nospace : ∀ p ∈ f :: args.map (fun p => p.1 ++ ':' :: p.2),
      ' ' ∉ p := by
    intro p hp hmem
    exact hparts_ws p hp ' ' hmem (by decide)
  have hcmd_strip : pyStrip (command_to_cmdstr ⟨f, args⟩) =
      command_to_cmdstr ⟨f, args⟩ := by
    apply pyStrip_eq_self_of_ends
    · intro c hc
      rw [command_to_cmdstr] at hc
      rw [pyJoin_head? [' '] f _ hf_ne] at hc
      cases f with
      | nil => exact absurd rfl hf_ne
      | cons a t =>
        have hac : a = c := by simpa using hc
        exact hf_chars c (hac ▸ List.mem_cons_self a t)
    · intro c hc
      rw [command_to_cmdstr] at hc
      cases hargs_shape : args.map (fun p => p.1 ++ ':' :: p.2) with
      | nil =>
        rw [hargs_shape] at hc
        have hcf : (pyJoin [' '] [f]).getLast? = f.getLast? := rfl
        rw [hcf] at hc
        exact hf_chars c (List.mem_of_getLast?_eq_some hc)
      | cons t ts =>
        rw [hargs_shape] at hc
        have htne : (t :: ts) ≠ [] := by simp
        have hlast_ne : (t :: ts).getLast htne ≠ [] := by
          apply htok_ne
          rw [hargs_shape]
          exact List.getLast_mem htne
        have hdecomp : f :: t :: ts =
            (f :: (t :: ts).dropLast) ++ [(t :: ts).getLast htne] := by
          rw [show f :: (t :: ts).dropLast ++ [(t :: ts).getLast htne] =
              f :: ((t :: ts).dropLast ++ [(t :: ts).getLast htne]) from rfl]
          rw [List.dropLast_append_getLast htne]
        rw [hdecomp, pyJoin_getLast? [' '] _ _ hlast_ne] at hc
        have hmem := List.mem_of_getLast?_eq_some hc
        refine htok_ws _ ?_ c hmem
        rw [hargs_shape]
        exact List.getLast_mem htne
  have hline : block_to_start_string ⟨s, e, ⟨f, args⟩, cm⟩ =
      cm ++ ' ' :: (START_MARKER ++ ' ' :: command_to_cmdstr ⟨f, args⟩) := by
    rw [block_to_start_string]
    simp
  rw [hline]
  unfold extract_command
  rw [split_marker_start_line cm _ hcm_strip hcm_marker hcmd_strip]
  dsimp only
  rw [hcmd_strip]
  have hsplit : pySplit ' ' (command_to_cmdstr ⟨f, args⟩) =
      f :: args.map (fun p => p.1 ++ ':' :: p.2) := by
    rw [command_to_cmdstr]
    exact pySplit_pyJoin _ hparts_nospace (by simp)
  rw [hsplit]
  dsimp only
  have hargs_colon : ∀ p ∈ args, ':' ∉ p.1 ∧ ':' ∉ p.2 := by
    intro q hq
    exact ⟨fun hmem => ((hargs q hq).1 ':' hmem).2 rfl,
      fun hmem => ((hargs q hq).2 ':' hmem).2 rfl⟩
  have hextract : extract_args (args.map (fun p => p.1 ++ ':' :: p.2)) =
      some args := by
    rw [extract_args, extract_args_mapped args hargs_colon []]
    rw [foldl_odSet_of_nodup args [] (by simpa using hnodup)]
    simp
  rw [hextract]

/-- C4 counterexample: the start line `"KIGEN_start f"` has no argument
tokens at all (so the no-spaces-no-colons condition of the claim holds
vacuously), yet reconstructing from the parsed command prepends the empty
comment marker with a space: the result `" KIGEN_start f"` is not
byte-identical to the original line. -/
theorem C4_counterexample :
    extract_command (("KIGEN_start f").toList) = some ([], ⟨['f'], []⟩) ∧
    block_to_start_string ⟨0, 0, ⟨['f'], []⟩, []⟩ = (" KIGEN_start f").toList ∧
    block_to_start_string ⟨0, 0, ⟨['f'], []⟩, []⟩ ≠ ("KIGEN_start f").toList := by
  refine ⟨rfl, rfl, ?_⟩
  decide

/-- Witness for `C4_start_line_round_trip` on the line of the repository
test `test_command_round_trip`: `"# KIGEN_start foo arg1:a arg2:b"`. -/
theorem C4_witness :
    extract_command (block_to_start_string ⟨0, 1, ⟨("foo").toList,
        [(("arg1").toList, ("a").toList), (("arg2").toList, ("b").toList)]⟩,
        ['#']⟩) =
      some (['#'], ⟨("foo").toList,
        [(("arg1").toList, ("a").toList), (("arg2").toList, ("b").toList)]⟩) :=
  C4_start_line_round_trip 0 1 ['#'] (("foo").toList)
    [(("arg1").toList, ("a").toList), (("arg2").toList, ("b").toList)]
    (by decide) (by decide) (by decide) (by decide) (by decide) (by decide)

/-!
## Claim C3: identity-render recombination
-/

/-- The rendered block the claim prescribes: reconstructed from the
original start string, original body lines, and end string of the block
with its command unchanged — i.e. the original text span of the block,
lines `start` through `end_` joined by newlines. -/
def identity_render (lines : List PyStr) (b : AutogenBlock) : PyStr :=
  pyJoin ['\n'] ((lines.drop b.start).take (b.end_ + 1 - b.start))

/-- The line slices that the interleaving of chunks and identity-rendered
blocks covers: chunk slice, block span, chunk slice, block span, ... -/
def sliceSeq (lines : List PyStr) (idx : Nat) : List AutogenBlock → List (List PyStr)
  | [] => []
  | b :: rest =>
    (lines.drop idx).take (b.start - idx) ::
      (lines.drop b.start).take (b.end_ + 1 - b.start) ::
        sliceSeq lines (b.end_ + 1) rest

theorem pyJoin_glue (A B : List PyStr) (hA : A ≠ []) (hB : B ≠ []) :
    pyJoin ['\n'] (A ++ B) = pyJoin ['\n'] A ++ '\n' :: pyJoin ['\n'] B := by
  induction A with
  | nil => exact absurd rfl hA
  | cons a A' ih =>
    cases A' with
    | nil =>
      rw [List.singleton_append, pyJoin_cons _ a B hB]
      simp [pyJoin, List.append_assoc]
    | cons a2 A'' =>
      rw [List.cons_append, pyJoin_cons _ a ((a2 :: A'') ++ B) (by simp),
        pyJoin_cons _ a (a2 :: A'') (by simp), ih (by simp)]
      simp [List.append_assoc]

theorem pyJoin_flatten (parts : List (List PyStr))
    (h : ∀ p ∈ parts, p ≠ []) :
    pyJoin ['\n'] (parts.map (pyJoin ['\n'])) = pyJoin ['\n'] parts.flatten := by
  induction parts with
  | nil => rfl
  | cons p ps ih =>
    cases ps with
    | nil => simp [pyJoin]
    | cons q ps' =>
      have hp := h p (List.mem_cons_self p (q :: ps'))
      have hps : ∀ x ∈ q :: ps', x ≠ [] := fun x hx => h x (List.mem_cons_of_mem p hx)
      have hflat_ne : (q :: ps').flatten ≠ [] := by
        rw [List.flatten_cons]
        have hq := hps q (List.mem_cons_self q ps')
        intro hnil
        exact hq (List.append_eq_nil.1 hnil).1
      rw [List.map_cons, pyJoin_cons _ _ _ (by simp), ih hps]
      rw [show (p :: q :: ps').flatten = p ++ (q :: ps').flatten from rfl]
      rw [pyJoin_glue p (q :: ps').flatten hp hflat_ne]
      simp [List.append_assoc]

theorem slice_append (l : List PyStr) (i j k : Nat) (hij : i ≤ j) (hjk : j ≤ k) :
    (l.drop i).take (j - i) ++ (l.drop j).take (k - j) =
      (l.drop i).take (k - i) := by
  have h2 : (l.drop i).drop (j - i) = l.drop j := by
    rw [List.drop_drop]
    congr 1
    omega
  rw [show k - i = (j - i) + (k - j) from by omega, List.take_add, h2]

theorem zipFlat_sliceSeq (lines : List PyStr) :
    ∀ (bs : List AutogenBlock) (idx : Nat),
      zipFlat (splitFileAux lines idx bs) (bs.map (identity_render lines)) =
        (sliceSeq lines idx bs).map (pyJoin ['\n']) := by
  intro bs
  induction bs with
  | nil => intro idx; rfl
  | cons b rest ih =>
    intro idx
    rw [splitFileAux, List.map_cons, sliceSeq]
    rw [List.map_cons, List.map_cons]
    rw [show zipFlat
        (pyJoin ['\n'] ((lines.drop idx).take (b.start - idx)) ::
          splitFileAux lines (b.end_ + 1) rest)
        (identity_render lines b :: rest.map (identity_render lines)) =
      pyJoin ['\n'] ((lines.drop idx).take (b.start - idx)) ::
        identity_render lines b ::
          zipFlat (splitFileAux lines (b.end_ + 1) rest)
            (rest.map (identity_render lines)) from rfl]
    rw [ih (b.end_ + 1)]
    rfl

theorem end_le_getLast :
    ∀ (bs : List AutogenBlock),
      (∀ x ∈ bs, x.start ≤ x.end_) →
      List.Chain' (fun a b => a.end_ < b.start) bs →
      ∀ x ∈ bs, x.end_ ≤ (bs.getLastD default).end_ := by
  intro bs
  induction bs with
  | nil => intro _ _ x hx; exact absurd hx (by simp)
  | cons b rest ih =>
    intro hse hchain x hx
    cases rest with
    | nil =>
      rcases List.mem_cons.1 hx with hx | hx
      · rw [hx]; rfl
      · exact absurd hx (by simp)
    | cons c rest' =>
      have hchain2 := (List.chain'_cons.1 hchain)
      have hrest_se : ∀ y ∈ c :: rest', y.start ≤ y.end_ :=
        fun y hy => hse y (List.mem_cons_of_mem b hy)
      have hlastD : ((b :: c :: rest').getLastD default) =
          ((c :: rest').getLastD default) := by
        rfl
      rw [hlastD]
      rcases List.mem_cons.1 hx with hx | hx
      · have hbc : b.end_ < c.start := hchain2.1
        have hc_le := ih hrest_se hchain2.2 c (List.mem_cons_self c rest')
        have hc_se := hrest_se c (List.mem_cons_self c rest')
        rw [hx]
        omega
      · exact ih hrest_se hchain2.2 x hx

theorem sliceSeq_flatten (lines : List PyStr) :
    ∀ (bs : List AutogenBlock) (idx : Nat), bs ≠ [] →
      idx ≤ (bs.headD default).start →
      (∀ x ∈ bs, x.start ≤ x.end_) →
      List.Chain' (fun a b => a.end_ < b.start) bs →
      (sliceSeq lines idx bs).flatten =
        (lines.drop idx).take ((bs.getLastD default).end_ + 1 - idx) := by
  intro bs
  induction bs with
  | nil => intro idx hne; exact absurd rfl hne
  | cons b rest ih =>
    intro idx _ hidx hse hchain
    have hbse : b.start ≤ b.end_ := hse b (List.mem_cons_self b rest)
    cases rest with
    | nil =>
      show ((lines.drop idx).take (b.start - idx) ::
        (lines.drop b.start).take (b.end_ + 1 - b.start) :: []).flatten = _
      simp only [List.flatten_cons, List.flatten_nil, List.append_nil]
      have := slice_append lines idx b.start (b.end_ + 1) hidx (by omega)
      simpa using this
    | cons c rest' =>
      have hchain2 := List.chain'_cons.1 hchain
      have hrest_se : ∀ y ∈ c :: rest', y.start ≤ y.end_ :=
        fun y hy => hse y (List.mem_cons_of_mem b hy)
      have hnext : b.end_ + 1 ≤ c.start := hchain2.1
      have hrec := ih (b.end_ + 1) (by simp) (by simpa using hnext)
        hrest_se hchain2.2
      have hElast : c.end_ ≤ ((c :: rest').getLastD default).end_ :=
        end_le_getLast (c :: rest') hrest_se hchain2.2 c
          (List.mem_cons_self c rest')
      have hcse : c.start ≤ c.end_ := hrest_se c (List.mem_cons_self c rest')
      show ((lines.drop idx).take (b.start - idx) ::
        (lines.drop b.start).take (b.end_ + 1 - b.start) ::
          sliceSeq lines (b.end_ + 1) (c :: rest')).flatten = _
      simp only [List.flatten_cons]
      rw [hrec]
      rw [slice_append lines b.start (b.end_ + 1)
        (((c :: rest').getLastD default).end_ + 1) (by omega) (by omega)]
      rw [slice_append lines idx b.start
        (((c :: rest').getLastD default).end_ + 1) hidx (by omega)]
      rfl

theorem sliceSeq_ne_nil (lines : List PyStr) :
    ∀ (bs : List AutogenBlock) (idx : Nat), bs ≠ [] →
      idx < (bs.headD default).start →
      (∀ x ∈ bs, x.start ≤ x.end_) →
      List.Chain' (fun a b => a.end_ + 1 < b.start) bs →
      (bs.getLastD default).end_ < lines.length →
      ∀ p ∈ sliceSeq lines idx bs, p ≠ [] := by
  intro bs
  induction bs with
  | nil => intro idx hne; exact absurd rfl hne
  | cons b rest ih =>
    intro idx _ hidx hse hchain hlast p hp
    have hidx' : idx < b.start := hidx
    have hbse : b.start ≤ b.end_ := hse b (List.mem_cons_self b rest)
    have hchain_weak : List.Chain' (fun a b => a.end_ < b.start) (b :: rest) :=
      hchain.imp (fun hab => by omega)
    have hbend : b.end_ ≤ ((b :: rest).getLastD default).end_ :=
      end_le_getLast (b :: rest) hse hchain_weak b (List.mem_cons_self b rest)
    have hblen : b.end_ < lines.length := by omega
    have hslice_ne : ∀ (i n : Nat), i < lines.length → 0 < n →
        (lines.drop i).take n ≠ [] := by
      intro i n hi hn
      intro hnil
      have := congrArg List.length hnil
      rw [List.length_take, List.length_drop] at this
      simp at this
      omega
    rw [sliceSeq] at hp
    rcases List.mem_cons.1 hp with hp | hp
    · rw [hp]
      exact hslice_ne idx (b.start - idx) (by omega) (by omega)
    rcases List.mem_cons.1 hp with hp | hp
    · rw [hp]
      exact hslice_ne b.start (b.end_ + 1 - b.start) (by omega) (by omega)
    · cases rest with
      | nil => exact absurd hp (by simp [sliceSeq])
      | cons c rest' =>
        have hchain2 := List.chain'_cons.1 hchain
        have hrest_se : ∀ y ∈ c :: rest', y.start ≤ y.end_ :=
          fun y hy => hse y (List.mem_cons_of_mem b hy)
        refine ih (b.end_ + 1) (by simp) ?_ hrest_se hchain2.2 ?_ p hp
        · simpa using hchain2.1
        · have : ((b :: c :: rest').getLastD default) =
              ((c :: rest').getLastD default) := rfl
          rw [this] at hlast
          exact hlast

/-- C3 (amended): recombining the chunks with identity-rendered blocks
(each block replaced by its own original lines) reproduces the file text
exactly when (a) the scan succeeds with at least one block, (b) every
passthrough chunk is nonempty — the first block starts after line 0 and
consecutive blocks are separated by at least one line, (c) the last block
ends on the final line of the file, and (d) the text carries no trailing
newline (it equals its lines joined by newlines).  Without these
conditions the round trip fails: a zero-block file recombines to the
empty string, text after the last block is dropped, and empty chunks or a
trailing newline introduce or lose newline characters. -/
theorem C3_identity_render_round_trip (text : PyStr) (bs : List AutogenBlock)
    (hscan : extract_blocks text = .ok bs)
    (hjoin : pyJoin ['\n'] (pySplitlines text) = text)
    (hne : bs ≠ [])
    (hfirst : 0 < (bs.headD default).start)
    (hgaps : List.Chain' (fun a b => a.end_ + 1 < b.start) bs)
    (hlast : (bs.getLastD default).end_ + 1 = (pySplitlines text).length) :
    recombine (split_file_at_blocks text bs)
      (bs.map (identity_render (pySplitlines text))) = text := by
  obtain ⟨m, hscanAux⟩ := (extract_blocks_ok_iff text bs).1 hscan
  obtain ⟨tail, htail, hbound, _⟩ :=
    scanAux_blocks_inv (pySplitlines text) 0 .outside [] m bs hscanAux
      (fun b cm cmd hb => absurd hb (by simp))
  simp only [List.nil_append] at htail
  have hse : ∀ x ∈ bs, x.start ≤ x.end_ := by
    intro x hx
    rw [htail] at hx
    exact (hbound x hx).2
  have hchain_weak : List.Chain' (fun a b => a.end_ < b.start) bs :=
    hgaps.imp (fun h => by omega)
  have hlen : (bs.getLastD default).end_ < (pySplitlines text).length := by omega
  have step1 : recombine (split_file_at_blocks text bs)
      (bs.map (identity_render (pySplitlines text))) =
      pyJoin ['\n'] ((sliceSeq (pySplitlines text) 0 bs).map (pyJoin ['\n'])) := by
    rw [recombine, split_file_at_blocks, zipFlat_sliceSeq]
  rw [step1,
    pyJoin_flatten _ (sliceSeq_ne_nil (pySplitlines text) bs 0 hne hfirst hse hgaps hlen),
    sliceSeq_flatten (pySplitlines text) bs 0 hne (Nat.zero_le _) hse hchain_weak,
    List.drop_zero, Nat.sub_zero, hlast, List.take_length]
  exact hjoin

/-- C3 counterexample: the file `"hello"` is well formed (zero blocks),
but recombining its chunks with its (zero) identity-rendered blocks
yields the empty string, not the original text. -/
theorem C3_counterexample :
    extract_blocks (("hello").toList) = .ok [] ∧
    recombine (split_file_at_blocks (("hello").toList) [])
      (([] : List AutogenBlock).map
        (identity_render (pySplitlines (("hello").toList)))) = [] ∧
    ("hello").toList ≠ [] := by
  refine ⟨rfl, rfl, ?_⟩
  decide

/-- Fixture for the C3 witness: one block on lines 1-3, preceded by a
nonempty chunk, ending on the final line, no trailing newline. -/
def w3Text : PyStr := ("A\n# KIGEN_start f\nbody\n# KIGEN_end").toList

/-- The block the scanner returns for `w3Text`. -/
def w3Block : AutogenBlock := ⟨1, 3, ⟨['f'], []⟩, ['#']⟩

/-- Witness for `C3_identity_render_round_trip` on `w3Text`. -/
theorem C3_witness :
    recombine (split_file_at_blocks w3Text [w3Block])
      ([w3Block].map (identity_render (pySplitlines w3Text))) = w3Text :=
  C3_identity_render_round_trip w3Text [w3Block] rfl rfl (by simp)
    (by decide) (by simp) rfl
